import Mathlib

set_option maxRecDepth 100000

/-!
# Verification of the COVID-19 dashboard data pipeline (src/app.py)

The program is a pandas/streamlit dashboard.  Its data pipeline is embedded
here shallowly:

* a DataFrame row becomes a `Record`; a DataFrame becomes a `Table`
  (an ordered list of rows);
* `date` values are modelled as day indices (days since 2020-01-01) — the
  program only ever compares dates, generates 600 consecutive ones, and
  prints them, so a totally ordered `Nat` index is a faithful image;
* `df[(df["date"] >= start_date) & (df["date"] <= end_date)]` (app.py:53)
  becomes `df_filtered`;
* `df_filtered.sort_values("date").groupby("location", as_index=False).last()`
  (app.py:59) becomes `latest`: pandas `sort_values` produces a permutation
  sorted on the key (modelled with the canonical stable sort `mergeSort`;
  every theorem below except the concrete-scenario one depends only on
  sortedness plus being a permutation, and in the concrete scenario all keys
  are distinct so every sorted permutation coincides); `groupby` with
  `sort=True` (the default) emits one row per distinct key, keys in ascending
  order, and `.last()` keeps each group's last row in the sorted row order
  (the frame has no nulls);
* `latest.sort_values("total_cases", ascending=False).head(top_n)`
  (app.py:71) becomes `top_countries`;
* `create_local_data` (app.py:21-29) is embedded with the two `np.random`
  draws abstracted as arbitrary per-row value functions;
* `load_data` (app.py:34-38) under `@st.cache_data` becomes an explicit
  state transformer over the memo slot and the pickle file;
* `to_csv_bytes` (app.py:110-112) becomes `to_csv`, character-level CSV
  with the `QUOTE_MINIMAL` quoting rule pandas' csv writer uses.
-/

namespace Covid

/-- One row of the DataFrame built in `create_local_data` (app.py:22-27):
columns `date` (day index), `location`, `total_cases`, `total_deaths`. -/
structure Record where
  date : Nat
  location : String
  total_cases : Nat
  total_deaths : Nat
deriving DecidableEq, Repr

/-- A DataFrame: an ordered sequence of rows. -/
abbrev Table := List Record

/-- `df[(df["date"] >= start_date) & (df["date"] <= end_date)]` (app.py:53):
boolean-mask selection keeps, in order, exactly the rows whose date lies in
the inclusive window. -/
def df_filtered (df : Table) (start_date end_date : Nat) : Table :=
  df.filter (fun r => decide (start_date ≤ r.date) && decide (r.date ≤ end_date))

/-- The comparison `sort_values("date")` sorts by (app.py:59). -/
def dateLE (a b : Record) : Bool := decide (a.date ≤ b.date)

/-- `df_filtered.sort_values("date")` (app.py:59): a permutation of the rows
sorted ascending on `date`, modelled by the canonical stable sort. -/
def sortByDate (t : Table) : Table := t.mergeSort dateLE

/-- Python/pandas string comparison: lexicographic on code points. -/
def lexLE : List Char → List Char → Bool
  | [], _ => true
  | _ :: _, [] => false
  | a :: as, b :: bs => if a = b then lexLE as bs else decide (a.toNat < b.toNat)

/-- String order used by `groupby`'s key sorting. -/
def strLE (a b : String) : Bool := lexLE a.data b.data

/-- The group of rows of `t` carrying location `loc` (in row order). -/
def locGroup (t : Table) (loc : String) : Table :=
  t.filter (fun r => decide (r.location = loc))

/-- The sorted distinct group keys that `groupby("location")` (with its
default `sort=True`) emits: distinct locations of `t`, ascending. -/
def sortedLocations (t : Table) : List String :=
  ((t.map Record.location).dedup).mergeSort strLE

/-- `groupby("location", as_index=False).last()` (app.py:59): one row per
distinct location, keys ascending, each group contributing its last row in
the current row order (the generated frame has no nulls, so `.last()` is
literally the group's last row). -/
def groupLast (t : Table) : Table :=
  (sortedLocations t).filterMap (fun loc => (locGroup t loc).getLast?)

/-- `latest = df_filtered.sort_values("date").groupby("location", as_index=False).last()`
(app.py:59). -/
def latest (t : Table) : Table := groupLast (sortByDate t)

/-- The comparison `sort_values("total_cases", ascending=False)` sorts by
(app.py:71): descending on `total_cases`. -/
def casesGE (a b : Record) : Bool := decide (b.total_cases ≤ a.total_cases)

/-- `latest.sort_values("total_cases", ascending=False)` (app.py:71). -/
def sortByCasesDesc (t : Table) : Table := t.mergeSort casesGE

/-- `top_countries = latest.sort_values("total_cases", ascending=False).head(top_n)`
(app.py:71): `head(n)` keeps the first `n` rows. -/
def top_countries (t : Table) (n : Nat) : Table := (sortByCasesDesc t).take n

/-- `create_local_data` (app.py:21-29): 600 consecutive dates from 2020-01-01
(day indices 0-599), locations `["India"]*200 + ["USA"]*200 + ["UK"]*200`,
and the two `np.random.randint` column draws abstracted as arbitrary
per-row values `cases i` and `deaths i`.  `localRow` builds row `i`;
`create_local_data` assembles the 600-row frame. -/
def blockLabel (i : Nat) : String :=
  if i < 200 then "India" else if i < 400 then "USA" else "UK"

def localRow (cases deaths : Nat → Nat) (i : Nat) : Record :=
  { date := i
    location := blockLabel i
    total_cases := cases i
    total_deaths := deaths i }

def create_local_data (cases deaths : Nat → Nat) : Table :=
  (List.range 600).map (localRow cases deaths)

/-- `len(df_filtered)` — the "Rows" metric (app.py:62). -/
def rowsMetric (t : Table) : Nat := t.length

/-- `latest["location"].nunique()` — the "Countries" metric (app.py:63):
number of distinct values in the column. -/
def nuniqueLocations (t : Table) : Nat := (t.map Record.location).dedup.length

/-- The session state `load_data` (app.py:34-38) runs in: the
`@st.cache_data` memo slot for the zero-argument call, and the contents of
the pickle file `covid.pkl` (present or absent). -/
structure SessionState where
  memo : Option Table
  file : Option Table
deriving DecidableEq

/-- `load_data` (app.py:34-38) under `@st.cache_data`: a memoised call
returns the cached value; otherwise, if `covid.pkl` is absent,
`create_local_data()` draws a fresh table (`fresh`, standing for the random
draw) and writes it, and the pickle is read back and memoised. -/
def load_data (fresh : Table) (s : SessionState) : Table × SessionState :=
  match s.memo with
  | some t => (t, s)
  | none =>
    match s.file with
    | some t => (t, { s with memo := some t })
    | none => (fresh, { memo := some fresh, file := some fresh })

/-! ## CSV serialization (app.py:110-112)

`to_csv_bytes` is `d.to_csv(index=False).encode("utf-8")`.  UTF-8 encoding
of a string is injective and inverted by UTF-8 decoding, so the payload is
modelled at the character level.  `to_csv(index=False)` writes the header
`date,location,total_cases,total_deaths`, then one `\n`-terminated line per
row with comma-separated fields; numeric fields are printed in decimal, and
a text field is quoted, with inner quotes doubled, exactly when it contains
a separator, quote, or line-break character (csv `QUOTE_MINIMAL`).  Dates
are day indices here, so the date field prints as a decimal index (the
concrete rendering of a date is an injective token either way). -/

/-- Decimal digits of `n`, most significant first (`"0"` for zero). -/
def natChars (n : Nat) : List Char :=
  if n = 0 then ['0'] else ((Nat.digits 10 n).map Nat.digitChar).reverse

/-- csv `QUOTE_MINIMAL`: a field is quoted iff it contains the separator,
the quote character, or a line break. -/
def needsQuote (s : String) : Bool :=
  s.data.any (fun c => c = ',' || c = '"' || c = '\n' || c = '\r')

/-- Double every quote character (the csv writer's escaping inside a quoted
field). -/
def escapeQuotes : List Char → List Char
  | [] => []
  | c :: cs => if c = '"' then '"' :: '"' :: escapeQuotes cs else c :: escapeQuotes cs

/-- Render one text field with minimal quoting. -/
def encodeField (s : String) : List Char :=
  if needsQuote s then '"' :: (escapeQuotes s.data ++ ['"']) else s.data

/-- One CSV line for a row: `date,location,total_cases,total_deaths\n`. -/
def encodeRecord (r : Record) : List Char :=
  natChars r.date ++ ',' :: (encodeField r.location ++
    ',' :: (natChars r.total_cases ++ ',' :: (natChars r.total_deaths ++ ['\n'])))

/-- The header line `to_csv` writes for this frame (`index=False`: no index
column). -/
def csvHeader : List Char := "date,location,total_cases,total_deaths\n".data

/-- `d.to_csv(index=False)` (app.py:112) for this frame. -/
def to_csv (t : Table) : List Char := csvHeader ++ (t.map encodeRecord).flatten

/-! ### A standard CSV reader, to state the round-trip property. -/

/-- Is `c` a decimal digit? -/
def isDigitCh (c : Char) : Bool := decide (48 ≤ c.toNat) && decide (c.toNat ≤ 57)

/-- Value of a digit character. -/
def digitVal (c : Char) : Nat := c.toNat - 48

/-- Read a nonempty run of digits followed by the terminator `term`,
consuming the terminator; the run is read as a decimal numeral. -/
def parseNatField (term : Char) (cs : List Char) : Option (Nat × List Char) :=
  match cs.dropWhile isDigitCh with
  | [] => none
  | c :: rest =>
    if c = term && !(cs.takeWhile isDigitCh).isEmpty then
      some (Nat.ofDigits 10 (((cs.takeWhile isDigitCh).map digitVal).reverse), rest)
    else
      none

/-- Read the body of a quoted field after its opening quote: a doubled quote
is a literal quote, a lone quote closes the field. -/
def parseQuoted : List Char → Option (List Char × List Char)
  | [] => none
  | [c] => if c = '"' then some ([], []) else none
  | c :: c' :: cs =>
    if c = '"' then
      if c' = '"' then (parseQuoted cs).map (fun p => ('"' :: p.1, p.2))
      else some ([], c' :: cs)
    else
      (parseQuoted (c' :: cs)).map (fun p => (c :: p.1, p.2))

/-- A character an unquoted field may extend over: anything but a separator
or line break. -/
def notSep (c : Char) : Bool := !(c = ',' || c = '\n' || c = '\r')

/-- Read one text field, leaving its terminator in the remainder: either a
quoted field, or a run of characters up to the next separator or line
break. -/
def parseLocField (cs : List Char) : Option (String × List Char) :=
  if cs.head? = some '"' then
    (parseQuoted cs.tail).map (fun p => (String.mk p.1, p.2))
  else
    some (String.mk (cs.takeWhile notSep), cs.dropWhile notSep)

/-- Read one CSV line `date,location,total_cases,total_deaths\n`. -/
def parseRecord (cs : List Char) : Option (Record × List Char) := do
  let (d, cs₁) ← parseNatField ',' cs
  let (loc, cs₂) ← parseLocField cs₁
  match cs₂ with
  | ',' :: cs₃ => do
    let (tc, cs₄) ← parseNatField ',' cs₃
    let (td, cs₅) ← parseNatField '\n' cs₄
    some (⟨d, loc, tc, td⟩, cs₅)
  | _ => none

/-- Read the remaining CSV lines (`fuel` bounds the recursion; any value at
least the input length suffices). -/
def parseRows : Nat → List Char → Option Table
  | _, [] => some []
  | 0, _ :: _ => none
  | fuel + 1, c :: cs =>
    (parseRecord (c :: cs)).bind (fun p => (parseRows fuel p.2).map (p.1 :: ·))

/-- Read a whole CSV payload: the fixed header line, then the rows. -/
def parse_csv (cs : List Char) : Option Table :=
  if cs.take csvHeader.length = csvHeader then
    parseRows cs.length (cs.drop csvHeader.length)
  else
    none

/-! ## Order lemmas for the three sort comparators -/

theorem char_eq_of_toNat_eq {a b : Char} (h : a.toNat = b.toNat) : a = b :=
  Char.ext (UInt32.toNat.inj h)

theorem lexLE_total : ∀ as bs : List Char, lexLE as bs = true ∨ lexLE bs as = true
  | [], _ => Or.inl rfl
  | _ :: _, [] => Or.inr rfl
  | a :: as, b :: bs => by
    by_cases hab : a = b
    · subst hab
      simpa [lexLE] using lexLE_total as bs
    · have hne : ¬ b = a := fun h => hab h.symm
      rcases Nat.lt_or_ge a.toNat b.toNat with h | h
      · exact Or.inl (by simp [lexLE, hab, h])
      · rcases Nat.lt_or_ge b.toNat a.toNat with h' | h'
        · exact Or.inr (by simp [lexLE, hne, h'])
        · exact absurd (char_eq_of_toNat_eq (Nat.le_antisymm h' h)) hab

theorem lexLE_trans :
    ∀ as bs cs : List Char, lexLE as bs = true → lexLE bs cs = true → lexLE as cs = true
  | [], _, _, _, _ => rfl
  | a :: as, b :: bs, [], _, h2 => by simp [lexLE] at h2
  | a :: as, [], cs, h1, _ => by simp [lexLE] at h1
  | a :: as, b :: bs, c :: cs, h1, h2 => by
    by_cases hab : a = b <;> by_cases hbc : b = c
    · subst hab; subst hbc
      simp only [lexLE, if_pos rfl] at h1 h2 ⊢
      exact lexLE_trans as bs cs h1 h2
    · subst hab
      simpa [lexLE, hbc] using h2
    · subst hbc
      simpa [lexLE, hab] using h1
    · simp only [lexLE, if_neg hab] at h1
      simp only [lexLE, if_neg hbc] at h2
      have h1' : a.toNat < b.toNat := by simpa using h1
      have h2' : b.toNat < c.toNat := by simpa using h2
      have hac : a.toNat < c.toNat := Nat.lt_trans h1' h2'
      have hne : ¬ a = c := fun h => absurd (h ▸ hac) (Nat.lt_irrefl _)
      simp [lexLE, hne, hac]

theorem lexLE_antisymm :
    ∀ as bs : List Char, lexLE as bs = true → lexLE bs as = true → as = bs
  | [], [], _, _ => rfl
  | [], _ :: _, _, h2 => by simp [lexLE] at h2
  | _ :: _, [], h1, _ => by simp [lexLE] at h1
  | a :: as, b :: bs, h1, h2 => by
    by_cases hab : a = b
    · subst hab
      simp only [lexLE, if_pos rfl] at h1 h2
      exact congrArg (a :: ·) (lexLE_antisymm as bs h1 h2)
    · have hne : ¬ b = a := fun h => hab h.symm
      simp only [lexLE, if_neg hab] at h1
      simp only [lexLE, if_neg hne] at h2
      have h1' : a.toNat < b.toNat := by simpa using h1
      have h2' : b.toNat < a.toNat := by simpa using h2
      exact absurd (Nat.lt_trans h1' h2') (Nat.lt_irrefl _)

theorem strLE_total (a b : String) : (strLE a b || strLE b a) = true := by
  rcases lexLE_total a.data b.data with h | h <;> simp [strLE, h]

theorem strLE_trans (a b c : String) (h1 : strLE a b = true) (h2 : strLE b c = true) :
    strLE a c = true :=
  lexLE_trans a.data b.data c.data h1 h2

theorem strLE_antisymm (a b : String) (h1 : strLE a b = true) (h2 : strLE b a = true) :
    a = b := by
  cases a; cases b
  exact congrArg String.mk (lexLE_antisymm _ _ h1 h2)

theorem dateLE_total (a b : Record) : (dateLE a b || dateLE b a) = true := by
  simp [dateLE]; omega

theorem dateLE_trans (a b c : Record) (h1 : dateLE a b = true) (h2 : dateLE b c = true) :
    dateLE a c = true := by
  simp [dateLE] at *; omega

theorem casesGE_total (a b : Record) : (casesGE a b || casesGE b a) = true := by
  simp [casesGE]; omega

theorem casesGE_trans (a b c : Record) (h1 : casesGE a b = true) (h2 : casesGE b c = true) :
    casesGE a c = true := by
  simp [casesGE] at *; omega

/-! ## Structural lemmas about the aggregation stage -/

theorem sortByDate_perm (t : Table) : (sortByDate t).Perm t :=
  List.mergeSort_perm t dateLE

theorem sortByDate_sorted (t : Table) :
    (sortByDate t).Pairwise (fun a b => a.date ≤ b.date) :=
  (List.sorted_mergeSort dateLE_trans dateLE_total t).imp (fun h => by
    simpa [dateLE] using h)

theorem mem_sortedLocations {t : Table} {loc : String} :
    loc ∈ sortedLocations t ↔ loc ∈ t.map Record.location := by
  simp [sortedLocations, List.mem_dedup]

theorem nodup_sortedLocations (t : Table) : (sortedLocations t).Nodup :=
  ((List.mergeSort_perm _ strLE).symm).nodup (List.nodup_dedup _)

theorem sorted_sortedLocations (t : Table) :
    (sortedLocations t).Pairwise (fun a b => strLE a b = true) :=
  List.sorted_mergeSort strLE_trans strLE_total _

theorem locGroup_getLast {t : Table} {loc : String}
    (h : loc ∈ t.map Record.location) :
    ∃ r, (locGroup t loc).getLast? = some r ∧ r ∈ t ∧ r.location = loc := by
  obtain ⟨r₀, hr₀t, hr₀loc⟩ := List.mem_map.mp h
  have hne : locGroup t loc ≠ [] := by
    intro hnil
    have : r₀ ∈ locGroup t loc := List.mem_filter.mpr ⟨hr₀t, by simp [hr₀loc]⟩
    simp [hnil] at this
  refine ⟨(locGroup t loc).getLast hne, List.getLast?_eq_getLast _ hne, ?_, ?_⟩
  · exact (List.mem_filter.mp (List.getLast_mem hne)).1
  · have := (List.mem_filter.mp (List.getLast_mem hne)).2
    simpa using this

theorem map_location_filterMap_getLast (t : Table) :
    ∀ L : List String, (∀ loc ∈ L, loc ∈ t.map Record.location) →
      (L.filterMap (fun loc => (locGroup t loc).getLast?)).map Record.location = L
  | [], _ => rfl
  | loc :: L, h => by
    obtain ⟨r, hr, -, hrloc⟩ := locGroup_getLast (h loc (List.mem_cons_self loc L))
    simp only [List.filterMap_cons, hr, List.map_cons, hrloc]
    exact congrArg (loc :: ·)
      (map_location_filterMap_getLast t L (fun l hl => h l (List.mem_cons_of_mem _ hl)))

theorem map_location_groupLast (t : Table) :
    (groupLast t).map Record.location = sortedLocations t :=
  map_location_filterMap_getLast t (sortedLocations t)
    (fun _ hl => mem_sortedLocations.mp hl)

/-- The sorted distinct group keys depend only on the multiset of rows. -/
theorem sortedLocations_eq_of_perm {t t' : Table} (h : t.Perm t') :
    sortedLocations t = sortedLocations t' := by
  haveI : IsAntisymm String (fun a b => strLE a b = true) := ⟨strLE_antisymm⟩
  have hperm : (sortedLocations t).Perm (sortedLocations t') := by
    refine (List.perm_ext_iff_of_nodup (nodup_sortedLocations t)
      (nodup_sortedLocations t')).mpr ?_
    intro a
    rw [mem_sortedLocations, mem_sortedLocations]
    exact (h.map Record.location).mem_iff
  exact List.eq_of_perm_of_sorted hperm (sorted_sortedLocations t)
    (sorted_sortedLocations t')

theorem map_location_latest (t : Table) :
    (latest t).map Record.location = sortedLocations t := by
  rw [latest, map_location_groupLast]
  exact sortedLocations_eq_of_perm (sortByDate_perm t)

/-- Every row of `latest t` comes from `t`, and its date is maximal among
the rows of `t` sharing its location. -/
theorem mem_latest {t : Table} {r : Record} (h : r ∈ latest t) :
    r ∈ t ∧ ∀ r' ∈ t, r'.location = r.location → r'.date ≤ r.date := by
  obtain ⟨loc, -, hlast⟩ := List.mem_filterMap.mp h
  obtain ⟨pre, hpre⟩ := List.getLast?_eq_some_iff.mp hlast
  have hrg : r ∈ locGroup (sortByDate t) loc := by rw [hpre]; simp
  have hrloc : r.location = loc := by
    have := (List.mem_filter.mp hrg).2
    simpa using this
  have hsorted : (locGroup (sortByDate t) loc).Pairwise (fun a b => a.date ≤ b.date) :=
    List.Pairwise.sublist (List.filter_sublist _) (sortByDate_sorted t)
  constructor
  · exact (sortByDate_perm t).mem_iff.mp (List.mem_of_mem_filter hrg)
  · intro r' hr' hloc'
    have hr's : r' ∈ sortByDate t := (sortByDate_perm t).mem_iff.mpr hr'
    have hr'g : r' ∈ locGroup (sortByDate t) loc :=
      List.mem_filter.mpr ⟨hr's, by simp [hloc', hrloc]⟩
    rw [hpre] at hr'g hsorted
    rcases List.mem_append.mp hr'g with hmem | hmem
    · exact ((List.pairwise_append.mp hsorted).2.2 r' hmem r (by simp))
    · simp_all

/-! ## Claim theorems -/

/-- C1: `latest_per_location(T)` — sort by date ascending, then keep the last
row per location group (app.py:59) — returns exactly one row per distinct
location occurring in `T` (its location column is duplicate-free and has
exactly the locations of `T`), and each returned row is a row of `T` whose
date is greatest among `T`'s rows for that location (so its date equals the
maximum date for that location); if `T` is empty the output is empty. -/
theorem latest_per_location_correct (t : Table) :
    ((latest t).map Record.location).Nodup ∧
    (∀ loc, loc ∈ (latest t).map Record.location ↔ loc ∈ t.map Record.location) ∧
    (∀ r ∈ latest t, r ∈ t ∧ ∀ r' ∈ t, r'.location = r.location → r'.date ≤ r.date) ∧
    (t = [] → latest t = []) := by
  refine ⟨?_, ?_, ?_, ?_⟩
  · rw [map_location_latest]; exact nodup_sortedLocations t
  · intro loc
    rw [map_location_latest, mem_sortedLocations]
  · intro r hr
    exact mem_latest hr
  · rintro rfl
    simp [latest, groupLast, sortedLocations, sortByDate]

/-- C2: `filter(T, a, b)` — the boolean-mask selection of app.py:53 — keeps
exactly the rows with `a ≤ date ≤ b`, inclusive on both bounds: every kept
row satisfies the bounds, and each row value occurs in the output exactly as
often as it occurs among the in-bounds rows of `T` (no drops, no
duplicates). -/
theorem df_filtered_correct (t : Table) (a b : Nat) :
    (∀ r ∈ df_filtered t a b, a ≤ r.date ∧ r.date ≤ b) ∧
    (∀ r : Record, (df_filtered t a b).count r =
      if a ≤ r.date ∧ r.date ≤ b then t.count r else 0) := by
  constructor
  · intro r hr
    have := (List.mem_filter.mp hr).2
    simpa [df_filtered] using this
  · intro r
    by_cases h : a ≤ r.date ∧ r.date ≤ b
    · rw [if_pos h]
      exact List.count_filter (by simpa [df_filtered] using h)
    · rw [if_neg h]
      refine List.count_eq_zero.mpr ?_
      intro hmem
      exact h (by simpa [df_filtered] using (List.mem_filter.mp hmem).2)

/-- C3: `top_n(T, n)` — sort by `total_cases` descending, take the first `n`
rows (app.py:71) — returns exactly `min n |T|` rows, sorted descending on
`total_cases`; every returned row's `total_cases` is at least every
non-returned row's (the returned rows together with the dropped tail of the
sorted table form a permutation of `T`); and on an empty table the result is
empty for every `n`. -/
theorem top_n_correct (t : Table) (n : Nat) :
    (top_countries t n).length = min n t.length ∧
    (top_countries t n).Pairwise (fun a b : Record => b.total_cases ≤ a.total_cases) ∧
    (∀ r ∈ top_countries t n, ∀ r' ∈ (sortByCasesDesc t).drop n,
      r'.total_cases ≤ r.total_cases) ∧
    (top_countries t n ++ (sortByCasesDesc t).drop n).Perm t ∧
    (t = [] → top_countries t n = []) := by
  have hsorted : (sortByCasesDesc t).Pairwise (fun a b : Record => b.total_cases ≤ a.total_cases) :=
    (List.sorted_mergeSort casesGE_trans casesGE_total t).imp (fun h => by
      simpa [casesGE] using h)
  refine ⟨?_, ?_, ?_, ?_, ?_⟩
  · simp [top_countries, sortByCasesDesc]
  · exact List.Pairwise.sublist (List.take_sublist n _) hsorted
  · intro r hr r' hr'
    have := hsorted
    rw [← List.take_append_drop n (sortByCasesDesc t)] at this
    exact (List.pairwise_append.mp this).2.2 r hr r' hr'
  · rw [top_countries, List.take_append_drop]
    exact List.mergeSort_perm t casesGE
  · rintro rfl
    simp [top_countries, sortByCasesDesc]

theorem latest_nil : latest ([] : Table) = [] := by
  simp [latest, groupLast, sortedLocations, sortByDate]

/-- C7: the Dataset Provider's load (app.py:34-38, under `@st.cache_data`)
is idempotent within a session: a second call returns the very table the
first call returned and leaves the session state unchanged — even if a
second random draw (`fresh'`) would have produced different data, it is
never consulted. -/
theorem load_data_idempotent (fresh fresh' : Table) (s : SessionState) :
    (load_data fresh' (load_data fresh s).2).1 = (load_data fresh s).1 ∧
    (load_data fresh' (load_data fresh s).2).2 = (load_data fresh s).2 := by
  rcases s with ⟨memo, file⟩
  cases memo <;> cases file <;> simp [load_data]

/-- C8: when the date window excludes every row, the filtered table is
empty and every downstream stage degrades to an empty value rather than
failing: `latest` is empty, `top_n` is empty for every `n`, the row and
country counts are `0`, and the CSV payload is just the header line. -/
theorem empty_pipeline_safe (t : Table) (s e n : Nat)
    (h : ∀ r ∈ t, r.date < s ∨ e < r.date) :
    df_filtered t s e = [] ∧
    latest (df_filtered t s e) = [] ∧
    top_countries (latest (df_filtered t s e)) n = [] ∧
    rowsMetric (df_filtered t s e) = 0 ∧
    nuniqueLocations (latest (df_filtered t s e)) = 0 ∧
    to_csv (df_filtered t s e) = csvHeader := by
  have hf : df_filtered t s e = [] := by
    rw [df_filtered, List.filter_eq_nil_iff]
    intro r hr
    rcases h r hr with h' | h' <;> simp <;> omega
  rw [hf, latest_nil]
  refine ⟨rfl, rfl, ?_, rfl, rfl, ?_⟩
  · simp [top_countries, sortByCasesDesc]
  · simp [to_csv]

/-- C8 witness: a window strictly after the only row's date empties the
whole pipeline. -/
theorem empty_pipeline_safe_witness :
    df_filtered [⟨5, "India", 1, 1⟩] 10 20 = [] ∧
    latest (df_filtered [⟨5, "India", 1, 1⟩] 10 20) = [] ∧
    top_countries (latest (df_filtered [⟨5, "India", 1, 1⟩] 10 20)) 7 = [] ∧
    rowsMetric (df_filtered [⟨5, "India", 1, 1⟩] 10 20) = 0 ∧
    nuniqueLocations (latest (df_filtered [⟨5, "India", 1, 1⟩] 10 20)) = 0 ∧
    to_csv (df_filtered [⟨5, "India", 1, 1⟩] 10 20) = csvHeader :=
  empty_pipeline_safe [⟨5, "India", 1, 1⟩] 10 20 7 (by decide)

/-- C9: the filter stage (app.py:53) is an order-preserving subsequence of
its input: the kept rows appear in the output in the same relative order as
in `T` (and the stage is a pure function of its input — the embedding is a
function, so `T` itself is untouched). -/
theorem df_filtered_sublist (t : Table) (a b : Nat) :
    (df_filtered t a b).Sublist t :=
  List.filter_sublist t

/-- C10: the output of `latest_per_location` (app.py:59) is sorted by
location in ascending code-point (lexicographic) order — `groupby` sorts
its keys — and consequently the sequence of locations it hands to the
ranking stage does not depend on the order rows arrive in: any permutation
of the input yields the same location sequence. -/
theorem latest_locations_sorted (t t' : Table) (h : t.Perm t') :
    ((latest t).map Record.location).Pairwise (fun a b => strLE a b = true) ∧
    (latest t).map Record.location = (latest t').map Record.location := by
  constructor
  · rw [map_location_latest]
    exact sorted_sortedLocations t
  · rw [map_location_latest, map_location_latest]
    exact sortedLocations_eq_of_perm h

/-- C10 witness: on a two-row table and its swap, the location column of
`latest` is sorted and identical. -/
theorem latest_locations_sorted_witness :
    ((latest [⟨1, "USA", 2, 3⟩, ⟨0, "India", 4, 5⟩]).map Record.location).Pairwise
      (fun a b => strLE a b = true) ∧
    (latest [⟨1, "USA", 2, 3⟩, ⟨0, "India", 4, 5⟩]).map Record.location =
      (latest [⟨0, "India", 4, 5⟩, ⟨1, "USA", 2, 3⟩]).map Record.location :=
  latest_locations_sorted _ _ (by decide)

/-- C4: whatever values the two random draws produce, the synthesized
dataset has exactly 600 rows, dates the consecutive day indices 0-599
(2020-01-01 onward), rows 0-199 labeled "India", 200-399 "USA", 400-599
"UK"; and filtering to the full date range then taking latest-per-location
returns exactly three rows — "India"'s dated day 199, "UK"'s day 599,
"USA"'s day 399 (in `groupby`'s sorted key order India, UK, USA). -/
theorem create_local_data_scenario (cases deaths : Nat → Nat) :
    (create_local_data cases deaths).length = 600 ∧
    (create_local_data cases deaths).map Record.date = List.range 600 ∧
    (create_local_data cases deaths).map Record.location =
      List.replicate 200 "India" ++ List.replicate 200 "USA" ++ List.replicate 200 "UK" ∧
    latest (df_filtered (create_local_data cases deaths) 0 599) =
      [⟨199, "India", cases 199, deaths 199⟩, ⟨599, "UK", cases 599, deaths 599⟩,
       ⟨399, "USA", cases 399, deaths 399⟩] := by
  have hrow199 : localRow cases deaths 199 = ⟨199, "India", cases 199, deaths 199⟩ := by
    simp [localRow, blockLabel]
  have hrow399 : localRow cases deaths 399 = ⟨399, "USA", cases 399, deaths 399⟩ := by
    simp [localRow, blockLabel]
  have hrow599 : localRow cases deaths 599 = ⟨599, "UK", cases 599, deaths 599⟩ := by
    simp [localRow, blockLabel]
  have hmaploc : (create_local_data cases deaths).map Record.location =
      List.replicate 200 "India" ++ List.replicate 200 "USA" ++ List.replicate 200 "UK" := by
    rw [create_local_data, List.map_map,
      (funext fun i => rfl : Record.location ∘ localRow cases deaths = blockLabel)]
    decide
  have hfil : df_filtered (create_local_data cases deaths) 0 599
      = create_local_data cases deaths := by
    rw [df_filtered, List.filter_eq_self]
    intro r hr
    simp only [create_local_data, List.mem_map, List.mem_range] at hr
    obtain ⟨i, hi, rfl⟩ := hr
    simp only [localRow, Bool.and_eq_true, decide_eq_true_eq]
    omega
  have hsort : sortByDate (create_local_data cases deaths)
      = create_local_data cases deaths := by
    rw [sortByDate]
    apply List.mergeSort_of_sorted
    rw [create_local_data, List.pairwise_map]
    refine (List.pairwise_lt_range 600).imp ?_
    intro i j hij
    simp only [dateLE, localRow, decide_eq_true_eq]
    omega
  have hlocs : sortedLocations (create_local_data cases deaths)
      = ["India", "UK", "USA"] := by
    haveI : IsAntisymm String (fun a b => strLE a b = true) := ⟨strLE_antisymm⟩
    refine List.eq_of_perm_of_sorted ?_ (sorted_sortedLocations _) (by decide)
    refine (List.mergeSort_perm _ strLE).trans ?_
    rw [hmaploc, (by decide :
      (List.replicate 200 "India" ++ List.replicate 200 "USA"
        ++ List.replicate 200 "UK").dedup = ["India", "USA", "UK"])]
    exact List.Perm.cons "India" (List.Perm.swap "UK" "USA" [])
  have hgIndia : locGroup (create_local_data cases deaths) "India"
      = (List.range 200).map (localRow cases deaths) := by
    simp only [locGroup, create_local_data, List.filter_map]
    congr 1
  have hgUSA : locGroup (create_local_data cases deaths) "USA"
      = (List.range' 200 200).map (localRow cases deaths) := by
    simp only [locGroup, create_local_data, List.filter_map]
    congr 1
  have hgUK : locGroup (create_local_data cases deaths) "UK"
      = (List.range' 400 200).map (localRow cases deaths) := by
    simp only [locGroup, create_local_data, List.filter_map]
    congr 1
  have hlIndia : (locGroup (create_local_data cases deaths) "India").getLast?
      = some (localRow cases deaths 199) := by
    rw [hgIndia, List.getLast?_map,
      (by decide : (List.range 200).getLast? = some 199)]
    rfl
  have hlUSA : (locGroup (create_local_data cases deaths) "USA").getLast?
      = some (localRow cases deaths 399) := by
    rw [hgUSA, List.getLast?_map,
      (by decide : (List.range' 200 200).getLast? = some 399)]
    rfl
  have hlUK : (locGroup (create_local_data cases deaths) "UK").getLast?
      = some (localRow cases deaths 599) := by
    rw [hgUK, List.getLast?_map,
      (by decide : (List.range' 400 200).getLast? = some 599)]
    rfl
  refine ⟨by simp [create_local_data], ?_, hmaploc, ?_⟩
  · rw [create_local_data, List.map_map,
      (funext fun i => rfl : Record.date ∘ localRow cases deaths = id), List.map_id]
  · rw [hfil, latest, hsort, groupLast, hlocs]
    simp only [List.filterMap_cons, hlIndia, hlUK, hlUSA, List.filterMap_nil]
    rw [hrow199, hrow599, hrow399]

/-! ## CSV round-trip lemmas -/

theorem isDigitCh_digitChar {d : Nat} (h : d < 10) : isDigitCh (Nat.digitChar d) = true := by
  interval_cases d <;> decide

theorem digitVal_digitChar {d : Nat} (h : d < 10) : digitVal (Nat.digitChar d) = d := by
  interval_cases d <;> decide

theorem natChars_digit {n : Nat} : ∀ c ∈ natChars n, isDigitCh c = true := by
  intro c hc
  rw [natChars] at hc
  split at hc
  · rw [List.mem_singleton] at hc
    subst hc
    decide
  · rw [List.mem_reverse, List.mem_map] at hc
    obtain ⟨d, hd, rfl⟩ := hc
    exact isDigitCh_digitChar (Nat.digits_lt_base (by norm_num) hd)

theorem natChars_ne_nil (n : Nat) : natChars n ≠ [] := by
  rw [natChars]
  split
  · simp
  · next h =>
    simp only [ne_eq, List.reverse_eq_nil_iff, List.map_eq_nil_iff]
    exact Nat.digits_ne_nil_iff_ne_zero.mpr h

theorem ofDigits_natChars (n : Nat) :
    Nat.ofDigits 10 (((natChars n).map digitVal).reverse) = n := by
  rw [natChars]
  split
  · next h =>
    subst h
    decide
  · have hmap : (Nat.digits 10 n).map (digitVal ∘ Nat.digitChar) = Nat.digits 10 n := by
      refine Eq.trans (List.map_congr_left ?_) (List.map_id _)
      intro d hd
      exact digitVal_digitChar (Nat.digits_lt_base (by norm_num) hd)
    rw [List.map_reverse, List.reverse_reverse, List.map_map, hmap, Nat.ofDigits_digits]

theorem takeWhile_middle {p : Char → Bool} :
    ∀ (xs : List Char) (y : Char) (ys : List Char),
      (∀ c ∈ xs, p c = true) → p y = false →
      (xs ++ y :: ys).takeWhile p = xs ∧ (xs ++ y :: ys).dropWhile p = y :: ys
  | [], y, ys, _, hy => by
    simp [List.takeWhile_cons, List.dropWhile_cons, hy]
  | x :: xs, y, ys, hall, hy => by
    have hx : p x = true := hall x (List.mem_cons_self _ _)
    have ih := takeWhile_middle xs y ys (fun c hc => hall c (List.mem_cons_of_mem _ hc)) hy
    simp [List.takeWhile_cons, List.dropWhile_cons, hx, ih.1, ih.2]

theorem parseNatField_encode {term : Char} (hterm : isDigitCh term = false)
    (n : Nat) (rest : List Char) :
    parseNatField term (natChars n ++ term :: rest) = some (n, rest) := by
  obtain ⟨htake, hdrop⟩ := takeWhile_middle (natChars n) term rest natChars_digit hterm
  have hne : (natChars n).isEmpty = false := List.isEmpty_eq_false.mpr (natChars_ne_nil n)
  simp only [parseNatField]
  rw [hdrop, htake]
  simp [hne, ofDigits_natChars]

theorem parseQuoted_escape {d : Char} (hd : ¬ d = '"') :
    ∀ (cs rest : List Char),
      parseQuoted (escapeQuotes cs ++ '"' :: d :: rest) = some (cs, d :: rest)
  | [], rest => by
    simp [escapeQuotes, parseQuoted, hd]
  | '"' :: cs', rest => by
    have ih := parseQuoted_escape hd cs' rest
    simp only [escapeQuotes, if_pos rfl, List.cons_append, parseQuoted, if_true]
    rw [show (escapeQuotes cs').append ('"' :: d :: rest)
        = escapeQuotes cs' ++ '"' :: d :: rest from rfl, ih]
    rfl
  | c :: cs', rest => by
    by_cases hc : c = '"'
    · subst hc
      have ih := parseQuoted_escape hd cs' rest
      simp only [escapeQuotes, if_pos rfl, List.cons_append, parseQuoted, if_true]
      rw [show (escapeQuotes cs').append ('"' :: d :: rest)
          = escapeQuotes cs' ++ '"' :: d :: rest from rfl, ih]
      rfl
    · have ih := parseQuoted_escape hd cs' rest
      rcases h : escapeQuotes cs' ++ '"' :: d :: rest with _ | ⟨e, es⟩
      · exact absurd h (by simp)
      · simp only [escapeQuotes, if_neg hc, List.cons_append, h, parseQuoted]
        rw [← h, ih]
        rfl

theorem notSep_of_not_needsQuote {s : String} (h : needsQuote s = false) :
    ∀ c ∈ s.data, notSep c = true := by
  intro c hc
  rw [needsQuote, List.any_eq_false] at h
  have := h c hc
  simp only [Bool.or_eq_true, decide_eq_true_eq, not_or] at this
  simp only [notSep, Bool.not_eq_true', Bool.or_eq_false_iff, decide_eq_false_iff_not]
  tauto

theorem no_quote_of_not_needsQuote {s : String} (h : needsQuote s = false) :
    ∀ c ∈ s.data, ¬ c = '"' := by
  intro c hc
  rw [needsQuote, List.any_eq_false] at h
  have := h c hc
  simp only [Bool.or_eq_true, decide_eq_true_eq] at this
  tauto

theorem parseLocField_encode (s : String) (rest : List Char) :
    parseLocField (encodeField s ++ ',' :: rest) = some (s, ',' :: rest) := by
  rw [encodeField]
  split
  · have hassoc : ('"' :: (escapeQuotes s.data ++ ['"'])) ++ ',' :: rest
        = '"' :: (escapeQuotes s.data ++ '"' :: ',' :: rest) := by
      simp
    rw [hassoc, parseLocField]
    rw [if_pos (by rfl), List.tail_cons,
      parseQuoted_escape (by decide) s.data rest]
    rfl
  · next hq =>
    rw [Bool.not_eq_true] at hq
    obtain ⟨htake, hdrop⟩ :=
      takeWhile_middle s.data ',' rest (notSep_of_not_needsQuote hq) (by decide)
    have hhead : (s.data ++ ',' :: rest).head? ≠ some '"' := by
      rcases hsd : s.data with _ | ⟨c, cs⟩
      · simp
      · have : ¬ c = '"' :=
          no_quote_of_not_needsQuote hq c (by rw [hsd]; exact List.mem_cons_self _ _)
        simp [this]
    rw [parseLocField, if_neg hhead, htake, hdrop]

theorem parseRecord_encode (r : Record) (rest : List Char) :
    parseRecord (encodeRecord r ++ rest) = some (r, rest) := by
  obtain ⟨d, loc, tc, td⟩ := r
  have h1 : encodeRecord ⟨d, loc, tc, td⟩ ++ rest
      = natChars d ++ ',' :: (encodeField loc
        ++ ',' :: (natChars tc ++ ',' :: (natChars td ++ '\n' :: rest))) := by
    simp [encodeRecord]
  have e1 := parseNatField_encode (show isDigitCh ',' = false by decide) d
    (encodeField loc ++ ',' :: (natChars tc ++ ',' :: (natChars td ++ '\n' :: rest)))
  have e2 := parseLocField_encode loc (natChars tc ++ ',' :: (natChars td ++ '\n' :: rest))
  have e3 := parseNatField_encode (show isDigitCh ',' = false by decide) tc
    (natChars td ++ '\n' :: rest)
  have e4 := parseNatField_encode (show isDigitCh '\n' = false by decide) td rest
  rw [h1]
  simp [parseRecord, e1, e2, e3, e4]

theorem parseRows_encode :
    ∀ (t : Table) (fuel : Nat), (t.map encodeRecord).flatten.length ≤ fuel →
      parseRows fuel (t.map encodeRecord).flatten = some t
  | [], fuel, _ => by
    simp [parseRows]
  | r :: t, fuel, hfuel => by
    have hne := natChars_ne_nil r.date
    have hlen : 1 ≤ (encodeRecord r).length := by
      have : 0 < (natChars r.date).length := List.length_pos.mpr hne
      simp only [encodeRecord, List.length_append, List.length_cons]
      omega
    obtain ⟨c, cs, hcons⟩ :
        ∃ c cs, encodeRecord r ++ (t.map encodeRecord).flatten = c :: cs := by
      rcases h : encodeRecord r with _ | ⟨c, cs⟩
      · rw [h] at hlen; simp at hlen
      · exact ⟨c, cs ++ (t.map encodeRecord).flatten, by simp [h]⟩
    rw [List.map_cons, List.flatten_cons] at hfuel ⊢
    rw [List.length_append] at hfuel
    cases fuel with
    | zero => omega
    | succ fuel' =>
      have ih := parseRows_encode t fuel' (by omega)
      rw [hcons]
      simp only [parseRows]
      rw [← hcons, parseRecord_encode r]
      simp [ih]

/-- C6: CSV round-trip — serializing any table with the `to_csv(index=False)`
encoding of app.py:110-112 (comma-separated, header row
`date,location,total_cases,total_deaths`, no index column, minimal quoting)
and reading the payload back with a standard CSV reader recovers exactly the
same table: same columns, same values, same row order. -/
theorem csv_round_trip (t : Table) : parse_csv (to_csv t) = some t := by
  rw [to_csv, parse_csv, List.take_left, if_pos rfl, List.drop_left]
  exact parseRows_encode t (csvHeader ++ (t.map encodeRecord).flatten).length
    (by simp)

end Covid
